import Mathlib

/-!
Verification of the RFM (Recency / Frequency / Monetary) analysis script
src/rfm_analysis.py.

The pandas program is shallowly embedded as follows.

A raw table row is a Record; the date cell may arrive either as a raw
unparsed cell (object dtype from the database) or as an already-parsed
timestamp.  Timestamps are rationals counting days; a raw cell is
abstracted by the timestamp pd.to_datetime parses it to, or by none when
it is malformed (the concrete calendar string syntax is irrelevant to
every claim).  Assigning the parsed column back into
the caller's frame -- the statement  df[date] = pd.to_datetime(df[date]) --
is a real in-place mutation of the argument, so compute_rfm is modelled as
returning the final state of the caller's table together with the result.

Errors (pandas raising ValueError, e.g. from pd.qcut when quantile bin edges
coincide) are modelled as the Option value none.

rfm_score: series.rank(method = first) assigns the distinct integer ranks
1..N, ascending by value (descending when reverse is set), ties broken by
input position.  pd.qcut(ranks, 5) computes the linearly interpolated
quantile edges 1 + j*(N-1)/5 for j = 0..5 of the rank multiset 1..N and
places a rank r in the first right-closed bin it fits, the minimum landing
in bin 1; in exact arithmetic the bucket of rank r is therefore the least
b in 1..5 with 5*(r-1) <= b*(N-1).  With N = 0 the edges are all NaN and
with N = 1 they all coincide, so qcut raises (duplicates = raise) and the
model yields none; for N >= 2 the edges are strictly increasing and qcut
succeeds.

compute_rfm: groupby(id_col) with the default sort = True enumerates the
distinct keys in ascending order; per key the script computes
Recency = (snapshot - group max date).days  (floor of the day difference,
snapshot being one day past the global max date), Frequency = group row
count, Monetary = group revenue sum, then scores the three columns and
concatenates the three digits into the string RFM_Score.

segment: the ordered rule chain on one row, first match wins.
-/

namespace RFM

/-- Value of one date cell: either a raw (unparsed) cell as fetched from
the database -- abstracted by the timestamp it parses to, or none when it
is malformed -- or an already-parsed timestamp.  Timestamps are rationals
counting days. -/
inductive DateVal
  | raw (v : Option ℚ)
  | ts (t : ℚ)
deriving DecidableEq

/-- Parsing a single date cell, as pd.to_datetime does element-wise: an
already-parsed timestamp is untouched; a raw cell either parses or fails. -/
def to_datetime1 : DateVal → Option ℚ
  | DateVal.ts t => some t
  | DateVal.raw v => v

/-- Numeric value of a date cell (used after the column has been parsed). -/
def dval : DateVal → ℚ
  | DateVal.ts t => t
  | DateVal.raw v => v.getD 0

/-- One row of the performance table fetched from the database. -/
structure Record where
  campaign_id : ℕ
  date : DateVal
  performance_id : ℕ
  revenue_generated : ℚ
deriving DecidableEq

/-- Default record (placeholder for positional access). -/
def dRec : Record := ⟨0, DateVal.ts 0, 0, 0⟩

/-- Strict total order on the positions of a series used by
series.rank(method = first): ascending (or descending) by value, ties
broken by input position, earlier positions first. -/
def keyLt (asc : Bool) (xs : List ℚ) (j i : ℕ) : Prop :=
  (asc = true ∧ xs.getD j 0 < xs.getD i 0) ∨
  (asc = false ∧ xs.getD i 0 < xs.getD j 0) ∨
  (xs.getD j 0 = xs.getD i 0 ∧ j < i)

instance (asc : Bool) (xs : List ℚ) (j i : ℕ) : Decidable (keyLt asc xs j i) := by
  unfold keyLt
  infer_instance

/-- Rank of the element at position i under series.rank(method = first):
one plus the number of positions strictly before it in the order. -/
def rankAt (xs : List ℚ) (asc : Bool) (i : ℕ) : ℕ :=
  1 + ((Finset.range xs.length).filter (fun j => keyLt asc xs j i)).card

/-- Whole-series rank, as a list aligned with the input. -/
def rank_first (xs : List ℚ) (asc : Bool) : List ℕ :=
  (List.range xs.length).map (rankAt xs asc)

/-- Quintile bucket of rank r among the ranks 1..N under pd.qcut(ranks, 5):
the least b in 1..5 with 5*(r-1) <= b*(N-1) (right-closed bins at the
exact interpolated quantile edges 1 + b*(N-1)/5, minimum in bin 1). -/
def qcutBucket (N r : ℕ) : ℕ :=
  if 5 * (r - 1) ≤ N - 1 then 1
  else if 5 * (r - 1) ≤ 2 * (N - 1) then 2
  else if 5 * (r - 1) ≤ 3 * (N - 1) then 3
  else if 5 * (r - 1) ≤ 4 * (N - 1) then 4
  else 5

/-- Scores of a series: quintile bucket of each first-method rank
(ascending = not reverse, as in the script). -/
def scoreList (xs : List ℚ) (rev : Bool) : List ℕ :=
  (rank_first xs (!rev)).map (qcutBucket xs.length)

/-- Model of the function rfm_score of the script.  pd.qcut raises (none)
when the series has fewer than two entries, since the quantile bin edges
then all coincide (or are NaN on an empty series); otherwise it returns
the 1..5 scores aligned with the input. -/
def rfm_score (xs : List ℚ) (rev : Bool) : Option (List ℕ) :=
  if xs.length < 2 then none else some (scoreList xs rev)

/-- Maximum of a series of rationals (the default is never used on the
nonempty series the script takes maxima of). -/
def dmax (l : List ℚ) : ℚ := l.maximum.unbot' 0

/-- Distinct grouping keys in ascending order, as groupby(id_col) with the
default sort = True enumerates them. -/
def sortedKeys (rs : List Record) : List ℕ :=
  List.insertionSort (· ≤ ·) (rs.map Record.campaign_id).dedup

/-- Rows of one groupby group. -/
def groupOf (rs : List Record) (k : ℕ) : List Record :=
  rs.filter (fun r => r.campaign_id == k)

/-- Snapshot date: one day past the most recent date in the table. -/
def snapshot_date (rs : List Record) : ℚ :=
  dmax (rs.map (fun r => dval r.date)) + 1

/-- Recency of a key: (snapshot_date - group max date).days, the Timedelta
day count being the floor of the day difference. -/
def recencyOf (rs : List Record) (k : ℕ) : ℤ :=
  Int.floor (snapshot_date rs - dmax ((groupOf rs k).map (fun r => dval r.date)))

/-- Frequency of a key: count of the group's performance_id cells. -/
def freqOf (rs : List Record) (k : ℕ) : ℕ :=
  (groupOf rs k).length

/-- Monetary of a key: sum of the group's revenue_generated cells. -/
def monOf (rs : List Record) (k : ℕ) : ℚ :=
  ((groupOf rs k).map Record.revenue_generated).sum

/-- One row of the output table. -/
structure RfmRow where
  campaign_id : ℕ
  Recency : ℤ
  Frequency : ℕ
  Monetary : ℚ
  R_Score : ℕ
  F_Score : ℕ
  M_Score : ℕ
  RFM_Score : String
deriving DecidableEq

/-- The aggregated and scored table built by compute_rfm from a table whose
date column is already parsed: one row per distinct key in ascending key
order, with the three metric columns scored jointly across all rows. -/
def rfm_rows (rs : List Record) : List RfmRow :=
  let keys := sortedKeys rs
  let recL := keys.map (recencyOf rs)
  let frqL := keys.map (freqOf rs)
  let monL := keys.map (monOf rs)
  let rS := scoreList (recL.map (fun z => (z : ℚ))) true
  let fS := scoreList (frqL.map (fun n => (n : ℚ))) false
  let mS := scoreList monL false
  (List.range keys.length).map (fun i =>
    { campaign_id := keys.getD i 0
      Recency := recL.getD i 0
      Frequency := frqL.getD i 0
      Monetary := monL.getD i 0
      R_Score := rS.getD i 0
      F_Score := fS.getD i 0
      M_Score := mS.getD i 0
      RFM_Score := toString (rS.getD i 0) ++ toString (fS.getD i 0) ++
        toString (mS.getD i 0) })

/-- Column-wise pd.to_datetime: succeeds, replacing every date cell by its
parsed timestamp, exactly when every cell parses; raises (none) otherwise,
in which case the assignment into the frame never happens. -/
def parseDates (rs : List Record) : Option (List Record) :=
  if rs.all (fun r => (to_datetime1 r.date).isSome) then
    some (rs.map (fun r => { r with date := DateVal.ts ((to_datetime1 r.date).getD 0) }))
  else none

/-- Model of compute_rfm.  The first component is the state of the caller's
table afterwards: the script's first line writes the parsed date column
back into the caller's frame, so on parse success the caller observes the
parsed dates even when scoring later raises.  The second component is the
result: none models the pandas exception (unparseable dates, or qcut
raising because the table has fewer than two distinct keys, including the
empty table). -/
def compute_rfm (records : List Record) : List Record × Option (List RfmRow) :=
  match parseDates records with
  | none => (records, none)
  | some rs => (rs, if (sortedKeys rs).length < 2 then none else some (rfm_rows rs))

/-- Model of the function segment of the script: the ordered rule chain,
first match wins, over an arbitrary integer score triple. -/
def segment (r f m : ℤ) : String :=
  if 4 ≤ r ∧ 4 ≤ f ∧ 4 ≤ m then "Champions"
  else if 4 ≤ f ∧ 4 ≤ m then "Loyal Customers"
  else if 4 ≤ r then "Recent Customers"
  else if r ≤ 2 ∧ 3 ≤ f then "At Risk"
  else "Others"

/-- The script's top level: compute_rfm on the fetched table, then the
Segment column via row-wise application of segment.  Only the emitted
output table is returned (none when the run raised). -/
def run_pipeline (records : List Record) : Option (List (RfmRow × String)) :=
  (compute_rfm records).2.map (fun rows =>
    rows.map (fun row => (row, segment row.R_Score row.F_Score row.M_Score)))

/-! Helper lemmas. -/

/-- Positional access through List.map. -/
theorem getD_map_of_lt {α β : Type} (f : α → β) (l : List α) (i : ℕ) (h : i < l.length)
    (d : α) (d' : β) : (l.map f).getD i d' = f (l.getD i d) := by
  rw [List.getD_eq_getElem (l.map f) d' (by simpa using h), List.getD_eq_getElem l d h,
    List.getElem_map]

/-- Ranking preserves the length of the series. -/
theorem length_rank_first (xs : List ℚ) (asc : Bool) :
    (rank_first xs asc).length = xs.length := by
  simp [rank_first]

/-- Scoring preserves the length of the series. -/
theorem length_scoreList (xs : List ℚ) (rev : Bool) :
    (scoreList xs rev).length = xs.length := by
  simp [scoreList, rank_first]

/-- Every quintile bucket value is at least 1. -/
theorem qcutBucket_pos (N r : ℕ) : 1 ≤ qcutBucket N r := by
  unfold qcutBucket; split_ifs <;> omega

/-- Every quintile bucket value is at most 5. -/
theorem qcutBucket_le (N r : ℕ) : qcutBucket N r ≤ 5 := by
  unfold qcutBucket; split_ifs <;> omega

/-- Every score produced by scoreList lies in 1..5. -/
theorem scoreList_mem_range (xs : List ℚ) (rev : Bool) (s : ℕ)
    (hs : s ∈ scoreList xs rev) : 1 ≤ s ∧ s ≤ 5 := by
  obtain ⟨r, _, rfl⟩ := List.mem_map.1 hs
  exact ⟨qcutBucket_pos _ _, qcutBucket_le _ _⟩

/-- Position order: irreflexive. -/
theorem keyLt_irrefl (asc : Bool) (xs : List ℚ) (i : ℕ) : ¬ keyLt asc xs i i := by
  simp [keyLt]

/-- Position order: transitive. -/
theorem keyLt_trans (asc : Bool) (xs : List ℚ) {a b c : ℕ}
    (h1 : keyLt asc xs a b) (h2 : keyLt asc xs b c) : keyLt asc xs a c := by
  unfold keyLt at h1 h2 ⊢
  cases asc <;>
    simp only [Bool.true_eq_false, Bool.false_eq_true, false_and, false_or, true_and] at h1 h2 ⊢
  · rcases h1 with h1 | ⟨e1, l1⟩ <;> rcases h2 with h2 | ⟨e2, l2⟩
    · exact Or.inl (lt_trans h2 h1)
    · exact Or.inl (e2 ▸ h1)
    · exact Or.inl (e1 ▸ h2)
    · exact Or.inr ⟨e1.trans e2, lt_trans l1 l2⟩
  · rcases h1 with h1 | ⟨e1, l1⟩ <;> rcases h2 with h2 | ⟨e2, l2⟩
    · exact Or.inl (lt_trans h1 h2)
    · exact Or.inl (e2 ▸ h1)
    · exact Or.inl (e1 ▸ h2)
    · exact Or.inr ⟨e1.trans e2, lt_trans l1 l2⟩

/-- Position order: total on distinct positions. -/
theorem keyLt_total (asc : Bool) (xs : List ℚ) {i j : ℕ} (hne : i ≠ j) :
    keyLt asc xs i j ∨ keyLt asc xs j i := by
  unfold keyLt
  rcases lt_trichotomy (xs.getD i 0) (xs.getD j 0) with h | h | h
  · cases asc
    · exact Or.inr (Or.inr (Or.inl ⟨rfl, h⟩))
    · exact Or.inl (Or.inl ⟨rfl, h⟩)
  · rcases hne.lt_or_lt with hij | hij
    · exact Or.inl (Or.inr (Or.inr ⟨h, hij⟩))
    · exact Or.inr (Or.inr (Or.inr ⟨h.symm, hij⟩))
  · cases asc
    · exact Or.inl (Or.inr (Or.inl ⟨rfl, h⟩))
    · exact Or.inr (Or.inl ⟨rfl, h⟩)

/-- Ranks respect the position order strictly. -/
theorem rankAt_lt (xs : List ℚ) (asc : Bool) {i j : ℕ} (hi : i < xs.length)
    (h : keyLt asc xs i j) : rankAt xs asc i < rankAt xs asc j := by
  unfold rankAt
  have hsub : (Finset.range xs.length).filter (fun t => keyLt asc xs t i) ⊂
      (Finset.range xs.length).filter (fun t => keyLt asc xs t j) := by
    rw [Finset.ssubset_def]
    constructor
    · intro t ht
      rw [Finset.mem_filter] at ht ⊢
      exact ⟨ht.1, keyLt_trans asc xs ht.2 h⟩
    · intro hc
      have hmem : i ∈ (Finset.range xs.length).filter (fun t => keyLt asc xs t j) :=
        Finset.mem_filter.2 ⟨Finset.mem_range.2 hi, h⟩
      have hmem2 := hc hmem
      rw [Finset.mem_filter] at hmem2
      exact keyLt_irrefl asc xs i hmem2.2
  have := Finset.card_lt_card hsub
  omega

/-- Every rank is at least 1. -/
theorem one_le_rankAt (xs : List ℚ) (asc : Bool) (i : ℕ) : 1 ≤ rankAt xs asc i := by
  unfold rankAt
  omega

/-- Every rank of a real position is at most the length of the series. -/
theorem rankAt_le (xs : List ℚ) (asc : Bool) {i : ℕ} (hi : i < xs.length) :
    rankAt xs asc i ≤ xs.length := by
  unfold rankAt
  have hsub : (Finset.range xs.length).filter (fun t => keyLt asc xs t i) ⊆
      (Finset.range xs.length).erase i := by
    intro t ht
    rw [Finset.mem_filter] at ht
    rw [Finset.mem_erase]
    refine ⟨fun he => keyLt_irrefl asc xs i ?_, ht.1⟩
    exact he ▸ ht.2
  have hc := Finset.card_le_card hsub
  rw [Finset.card_erase_of_mem (Finset.mem_range.2 hi), Finset.card_range] at hc
  omega

/-- Distinct positions get distinct ranks (method = first never ties). -/
theorem rankAt_ne (xs : List ℚ) (asc : Bool) {i j : ℕ} (hi : i < xs.length)
    (hj : j < xs.length) (hne : i ≠ j) : rankAt xs asc i ≠ rankAt xs asc j := by
  rcases keyLt_total asc xs hne with h | h
  · exact Nat.ne_of_lt (rankAt_lt xs asc hi h)
  · exact (Nat.ne_of_lt (rankAt_lt xs asc hj h)).symm

/-- The ranks of a series of length N are exactly the integers 1..N. -/
theorem rankAt_image (xs : List ℚ) (asc : Bool) :
    Finset.image (rankAt xs asc) (Finset.range xs.length) = Finset.Icc 1 xs.length := by
  apply Finset.eq_of_subset_of_card_le
  · intro r hr
    obtain ⟨i, hi, rfl⟩ := Finset.mem_image.1 hr
    rw [Finset.mem_range] at hi
    exact Finset.mem_Icc.2 ⟨one_le_rankAt xs asc i, rankAt_le xs asc hi⟩
  · rw [Nat.card_Icc, Finset.card_image_of_injOn, Finset.card_range]
    · omega
    · intro a ha b hb hab
      by_contra hne
      exact rankAt_ne xs asc (Finset.mem_range.1 ha) (Finset.mem_range.1 hb) hne hab

/-- Bridge from counting over List.range to a Finset filter cardinality. -/
theorem countP_range (p : ℕ → Bool) (n : ℕ) :
    (List.range n).countP p = ((Finset.range n).filter (fun x => p x = true)).card := by
  induction n with
  | zero => rfl
  | succ n ih =>
    rw [List.range_succ, List.countP_append, Finset.range_succ, Finset.filter_insert]
    by_cases h : p n = true
    · rw [if_pos h, Finset.card_insert_of_not_mem (by simp)]
      simp only [List.countP_cons, List.countP_nil, h, if_pos]
      omega
    · rw [if_neg h]
      simp only [List.countP_cons, List.countP_nil, h, if_neg, ih]
      simp [h]

/-- Counting one bucket value over the ranks 1..5m: each of the five
quintile buckets receives exactly m ranks. -/
theorem qcut_count_Icc (m b : ℕ) (hm : 1 ≤ m) (hb1 : 1 ≤ b) (hb5 : b ≤ 5) :
    ((Finset.Icc 1 (5 * m)).filter (fun r => qcutBucket (5 * m) r = b)).card = m := by
  have hset : (Finset.Icc 1 (5 * m)).filter (fun r => qcutBucket (5 * m) r = b) =
      Finset.Icc ((b - 1) * m + 1) (b * m) := by
    interval_cases b <;>
      · ext r
        simp only [Finset.mem_filter, Finset.mem_Icc]
        unfold qcutBucket
        split_ifs <;> omega
  rw [hset, Nat.card_Icc]
  interval_cases b <;> omega

/-- The count of each bucket value among the scores of a series of length
5m: exactly m elements receive each score. -/
theorem scoreList_count (xs : List ℚ) (rev : Bool) (m b : ℕ) (hlen : xs.length = 5 * m)
    (hm : 1 ≤ m) (hb1 : 1 ≤ b) (hb5 : b ≤ 5) : (scoreList xs rev).count b = m := by
  have hmap : scoreList xs rev =
      (List.range xs.length).map (fun i => qcutBucket xs.length (rankAt xs (!rev) i)) := by
    unfold scoreList rank_first
    rw [List.map_map]
    rfl
  rw [hmap, List.count_eq_countP, List.countP_map]
  have hcomp : ((· == b) ∘ fun i => qcutBucket xs.length (rankAt xs (!rev) i)) =
      fun i => decide (qcutBucket xs.length (rankAt xs (!rev) i) = b) := by
    funext i
    by_cases h : qcutBucket xs.length (rankAt xs (!rev) i) = b <;> simp [h]
  rw [hcomp, countP_range]
  have hpred : ((Finset.range xs.length).filter
      (fun x => decide (qcutBucket xs.length (rankAt xs (!rev) x) = b) = true)) =
      ((Finset.range xs.length).filter
      (fun x => qcutBucket xs.length (rankAt xs (!rev) x) = b)) := by
    apply Finset.filter_congr
    intro x _
    simp
  rw [hpred]
  have himg : ((Finset.range xs.length).filter
      (fun x => qcutBucket xs.length (rankAt xs (!rev) x) = b)).card =
      ((Finset.Icc 1 xs.length).filter (fun r => qcutBucket xs.length r = b)).card := by
    rw [← rankAt_image xs (!rev), Finset.filter_image]
    rw [Finset.card_image_of_injOn]
    intro a ha bb hb hab
    rw [Finset.mem_coe, Finset.mem_filter] at ha hb
    by_contra hne
    exact rankAt_ne xs (!rev) (Finset.mem_range.1 ha.1) (Finset.mem_range.1 hb.1) hne hab
  rw [himg, hlen]
  exact qcut_count_Icc m b hm hb1 hb5

/-- Positional access into a score list. -/
theorem scoreList_getD (xs : List ℚ) (rev : Bool) {i : ℕ} (hi : i < xs.length) :
    (scoreList xs rev).getD i 0 = qcutBucket xs.length (rankAt xs (!rev) i) := by
  unfold scoreList rank_first
  rw [List.map_map, getD_map_of_lt _ (List.range xs.length) i (by simpa using hi) 0 0]
  rw [List.getD_eq_getElem _ _ (by simpa using hi), List.getElem_range]
  rfl

/-- A position below every other position in the order has rank 1. -/
theorem rankAt_bottom (xs : List ℚ) (asc : Bool) {i : ℕ}
    (h : ∀ j, j < xs.length → ¬ keyLt asc xs j i) : rankAt xs asc i = 1 := by
  unfold rankAt
  rw [Finset.filter_eq_empty_iff.2 (fun j hj => h j (Finset.mem_range.1 hj)),
    Finset.card_empty]

/-- A position above every other position in the order has rank N. -/
theorem rankAt_top (xs : List ℚ) (asc : Bool) {i : ℕ} (hi : i < xs.length)
    (h : ∀ j, j < xs.length → j ≠ i → keyLt asc xs j i) :
    rankAt xs asc i = xs.length := by
  unfold rankAt
  have hset : (Finset.range xs.length).filter (fun j => keyLt asc xs j i) =
      (Finset.range xs.length).erase i := by
    ext j
    rw [Finset.mem_filter, Finset.mem_erase, Finset.mem_range]
    constructor
    · intro hj
      exact ⟨fun he => keyLt_irrefl asc xs i (he ▸ hj.2), hj.1⟩
    · intro hj
      exact ⟨hj.2, h j hj.2 hj.1⟩
  rw [hset, Finset.card_erase_of_mem (Finset.mem_range.2 hi), Finset.card_range]
  omega

/-- Rank 1 falls in bucket 1. -/
theorem qcutBucket_rank_one (N : ℕ) : qcutBucket N 1 = 1 := by
  unfold qcutBucket
  simp

/-- Rank N falls in bucket 5 whenever the series has at least two entries. -/
theorem qcutBucket_rank_top (N : ℕ) (hN : 2 ≤ N) : qcutBucket N N = 5 := by
  unfold qcutBucket
  split_ifs <;> omega

/-! Claim theorems. -/

/-- C1: for every numeric series of length at least five, rfm_score (with
invert off) succeeds and returns a list of the same length and order whose
elements are integers in 1..5; when the length is divisible by five,
exactly length/5 elements receive each score value; and on the series
1..10 the scores are [1,1,2,2,3,3,4,4,5,5]. -/
theorem rfm_score_quintile_contract :
    (∀ xs : List ℚ, 5 ≤ xs.length → ∃ ys, rfm_score xs false = some ys ∧
      ys.length = xs.length ∧ (∀ s ∈ ys, 1 ≤ s ∧ s ≤ 5) ∧
      ∀ b, 1 ≤ b → b ≤ 5 → 5 ∣ xs.length → ys.count b = xs.length / 5) ∧
    rfm_score [(1:ℚ), 2, 3, 4, 5, 6, 7, 8, 9, 10] false =
      some [1, 1, 2, 2, 3, 3, 4, 4, 5, 5] := by
  constructor
  · intro xs h5
    refine ⟨scoreList xs false, ?_, length_scoreList xs false,
      fun s hs => scoreList_mem_range xs false s hs, ?_⟩
    · unfold rfm_score
      rw [if_neg (by omega)]
    · intro b hb1 hb5 hdvd
      obtain ⟨m, hm⟩ := hdvd
      rw [hm, Nat.mul_div_cancel_left m (by norm_num)]
      exact scoreList_count xs false m b hm (by omega) hb1 hb5
  · rfl

/-- Witness for C1 at the concrete series [3, 1, 4, 1, 5]. -/
theorem rfm_score_quintile_contract_witness :
    ∃ ys, rfm_score [(3:ℚ), 1, 4, 1, 5] false = some ys ∧
      ys.length = 5 ∧ (∀ s ∈ ys, 1 ≤ s ∧ s ≤ 5) ∧
      ∀ b, 1 ≤ b → b ≤ 5 → ys.count b = 1 := by
  obtain ⟨ys, h1, h2, h3, h4⟩ :=
    rfm_score_quintile_contract.1 [(3:ℚ), 1, 4, 1, 5] (by decide)
  refine ⟨ys, h1, by simpa using h2, h3, fun b hb1 hb5 => ?_⟩
  have := h4 b hb1 hb5 (by decide)
  simpa using this

/-- C5: on a series with pairwise distinct values whose length is a positive
multiple of five, invert = true reverses the scoring relative to
invert = false: the position holding the maximum value scores 1 when
inverted and 5 when not, and the position holding the minimum scores 5 when
inverted and 1 when not. -/
theorem rfm_score_invert_reverses (xs : List ℚ) (hnd : xs.Nodup) (hdvd : 5 ∣ xs.length)
    (hpos : 0 < xs.length) (imax imin : ℕ) (hmaxlt : imax < xs.length)
    (hminlt : imin < xs.length)
    (hmax : ∀ j, j < xs.length → xs.getD j 0 ≤ xs.getD imax 0)
    (hmin : ∀ j, j < xs.length → xs.getD imin 0 ≤ xs.getD j 0) :
    ∃ ys zs, rfm_score xs true = some ys ∧ rfm_score xs false = some zs ∧
      ys.getD imax 0 = 1 ∧ zs.getD imax 0 = 5 ∧ ys.getD imin 0 = 5 ∧
      zs.getD imin 0 = 1 := by
  obtain ⟨m, hm⟩ := hdvd
  have hN : 2 ≤ xs.length := by omega
  have hgetne : ∀ {a b : ℕ}, a < xs.length → b < xs.length → a ≠ b →
      xs.getD a 0 ≠ xs.getD b 0 := by
    intro a b ha hb hne h
    rw [List.getD_eq_getElem xs 0 ha, List.getD_eq_getElem xs 0 hb] at h
    exact hne ((List.Nodup.getElem_inj_iff hnd).1 h)
  have hmax_desc : rankAt xs false imax = 1 := by
    apply rankAt_bottom
    intro j hj hk
    rcases hk with ⟨hfe, _⟩ | ⟨_, hlt⟩ | ⟨heq, hlt⟩
    · exact absurd hfe (by simp)
    · exact absurd hlt (not_lt.2 (hmax j hj))
    · exact hgetne hj hmaxlt (Nat.ne_of_lt hlt) heq
  have hmax_asc : rankAt xs true imax = xs.length := by
    apply rankAt_top xs true hmaxlt
    intro j hj hne
    exact Or.inl ⟨rfl, lt_of_le_of_ne (hmax j hj) (hgetne hj hmaxlt hne)⟩
  have hmin_desc : rankAt xs false imin = xs.length := by
    apply rankAt_top xs false hminlt
    intro j hj hne
    exact Or.inr (Or.inl ⟨rfl, lt_of_le_of_ne (hmin j hj) (hgetne hminlt hj (Ne.symm hne))⟩)
  have hmin_asc : rankAt xs true imin = 1 := by
    apply rankAt_bottom
    intro j hj hk
    rcases hk with ⟨_, hlt⟩ | ⟨hfe, _⟩ | ⟨heq, hlt⟩
    · exact absurd hlt (not_lt.2 (hmin j hj))
    · exact absurd hfe (by simp)
    · exact hgetne hj hminlt (Nat.ne_of_lt hlt) heq
  refine ⟨scoreList xs true, scoreList xs false, ?_, ?_, ?_, ?_, ?_, ?_⟩
  · unfold rfm_score
    rw [if_neg (by omega)]
  · unfold rfm_score
    rw [if_neg (by omega)]
  · rw [scoreList_getD xs true hmaxlt]
    simp only [Bool.not_true]
    rw [hmax_desc]
    exact qcutBucket_rank_one xs.length
  · rw [scoreList_getD xs false hmaxlt]
    simp only [Bool.not_false]
    rw [hmax_asc]
    exact qcutBucket_rank_top xs.length hN
  · rw [scoreList_getD xs true hminlt]
    simp only [Bool.not_true]
    rw [hmin_desc]
    exact qcutBucket_rank_top xs.length hN
  · rw [scoreList_getD xs false hminlt]
    simp only [Bool.not_false]
    rw [hmin_asc]
    exact qcutBucket_rank_one xs.length

/-- Witness for C5 at the concrete series [10, 30, 20, 50, 40] with the
maximum at position 3 and the minimum at position 0. -/
theorem rfm_score_invert_reverses_witness :
    ∃ ys zs, rfm_score [(10:ℚ), 30, 20, 50, 40] true = some ys ∧
      rfm_score [(10:ℚ), 30, 20, 50, 40] false = some zs ∧
      ys.getD 3 0 = 1 ∧ zs.getD 3 0 = 5 ∧ ys.getD 0 0 = 5 ∧ zs.getD 0 0 = 1 :=
  rfm_score_invert_reverses [(10:ℚ), 30, 20, 50, 40] (by decide) (by decide) (by decide)
    3 0 (by decide) (by decide) (by decide) (by decide)

/-- Parsing a cell and then reading it numerically is reading it
numerically. -/
theorem dval_parse (d : DateVal) : dval (DateVal.ts ((to_datetime1 d).getD 0)) = dval d := by
  cases d <;> rfl

/-- The parsed table is the cell-wise parse of the input table. -/
theorem parseDates_eq_some {records rs : List Record} (h : parseDates records = some rs) :
    rs = records.map
      (fun r => { r with date := DateVal.ts ((to_datetime1 r.date).getD 0) }) := by
  unfold parseDates at h
  by_cases hc : records.all (fun r => (to_datetime1 r.date).isSome) = true
  · rw [if_pos hc] at h
    exact (Option.some_injective _ h).symm
  · rw [if_neg hc] at h
    exact absurd h (by simp)

/-- Parsing preserves the numeric date column, the key column and the
revenue column. -/
theorem parse_dates_map {records rs : List Record} (h : parseDates records = some rs) :
    rs.map (fun r => dval r.date) = records.map (fun r => dval r.date) ∧
    rs.map Record.campaign_id = records.map Record.campaign_id ∧
    rs.map Record.revenue_generated = records.map Record.revenue_generated := by
  rw [parseDates_eq_some h, List.map_map, List.map_map, List.map_map]
  refine ⟨?_, rfl, rfl⟩
  congr 1
  funext r
  exact dval_parse r.date

/-- Membership in the sorted key list is membership in the key column. -/
theorem mem_sortedKeys {rs : List Record} {k : ℕ} :
    k ∈ sortedKeys rs ↔ k ∈ rs.map Record.campaign_id := by
  unfold sortedKeys
  rw [(List.perm_insertionSort _ _).mem_iff, List.mem_dedup]

/-- The sorted key list has no duplicate keys. -/
theorem sortedKeys_nodup (rs : List Record) : (sortedKeys rs).Nodup :=
  (List.perm_insertionSort _ _).nodup_iff.2 (List.nodup_dedup _)

/-- The sorted key list is strictly increasing. -/
theorem sortedKeys_sorted (rs : List Record) : List.Sorted (· < ·) (sortedKeys rs) :=
  List.Sorted.lt_of_le (List.sorted_insertionSort _ _) (sortedKeys_nodup rs)

/-- A group member is a table row with the group's key. -/
theorem groupOf_sub {rs : List Record} {k : ℕ} {r : Record} (h : r ∈ groupOf rs k) :
    r ∈ rs ∧ r.campaign_id = k := by
  unfold groupOf at h
  rw [List.mem_filter] at h
  exact ⟨h.1, by simpa using h.2⟩

/-- Every table row belongs to its own key's group. -/
theorem mem_groupOf {rs : List Record} {r : Record} (h : r ∈ rs) :
    r ∈ groupOf rs r.campaign_id :=
  List.mem_filter.2 ⟨h, by simp⟩

/-- Groups of keys that occur in the table are nonempty. -/
theorem groupOf_ne_nil {rs : List Record} {k : ℕ} (h : k ∈ sortedKeys rs) :
    groupOf rs k ≠ [] := by
  obtain ⟨r, hr, hrk⟩ := List.mem_map.1 (mem_sortedKeys.1 h)
  intro hnil
  have hmem : r ∈ groupOf rs k := List.mem_filter.2 ⟨hr, by simp [hrk]⟩
  simp [hnil] at hmem

/-- The maximum of a nonempty series is attained. -/
theorem dmax_mem {l : List ℚ} (h : l ≠ []) : dmax l ∈ l := by
  unfold dmax
  cases hmax : l.maximum with
  | bot => exact absurd (List.maximum_eq_none.1 hmax) h
  | coe m => exact List.maximum_mem hmax

/-- Every element of a series is at most its maximum. -/
theorem le_dmax {l : List ℚ} {a : ℚ} (h : a ∈ l) : a ≤ dmax l := by
  unfold dmax
  cases hmax : l.maximum with
  | bot =>
    exact absurd (List.maximum_eq_none.1 hmax ▸ h) (List.not_mem_nil a)
  | coe m => exact List.le_maximum_of_mem h hmax

/-- The maximum of a nonempty series is at most any upper bound. -/
theorem dmax_le {l : List ℚ} {c : ℚ} (h : l ≠ []) (hall : ∀ a ∈ l, a ≤ c) : dmax l ≤ c :=
  hall _ (dmax_mem h)

/-- A group's latest date is at most the table's latest date. -/
theorem dmax_group_le (rs : List Record) (k : ℕ) (hk : k ∈ sortedKeys rs) :
    dmax ((groupOf rs k).map (fun r => dval r.date)) ≤
      dmax (rs.map (fun r => dval r.date)) := by
  apply dmax_le (by simp [groupOf_ne_nil hk])
  intro a ha
  obtain ⟨r, hr, rfl⟩ := List.mem_map.1 ha
  exact le_dmax (List.mem_map.2 ⟨r, (groupOf_sub hr).1, rfl⟩)

/-- Every computed Recency is at least one day. -/
theorem one_le_recencyOf {rs : List Record} {k : ℕ} (hk : k ∈ sortedKeys rs) :
    1 ≤ recencyOf rs k := by
  unfold recencyOf snapshot_date
  rw [Int.le_floor]
  have h1 := dmax_group_le rs k hk
  push_cast
  linarith

/-- The key holding the table's most recent record has Recency exactly
one day. -/
theorem recencyOf_eq_one {rs : List Record} {r : Record} (hr : r ∈ rs)
    (hmax : ∀ q ∈ rs, dval q.date ≤ dval r.date) :
    recencyOf rs r.campaign_id = 1 := by
  have hne : rs ≠ [] := List.ne_nil_of_mem hr
  have hkmem : r.campaign_id ∈ sortedKeys rs :=
    mem_sortedKeys.2 (List.mem_map.2 ⟨r, hr, rfl⟩)
  have hgle := dmax_group_le rs r.campaign_id hkmem
  have hge : dmax (rs.map (fun q => dval q.date)) ≤
      dmax ((groupOf rs r.campaign_id).map (fun q => dval q.date)) := by
    have hdm : dval r.date ≤ dmax ((groupOf rs r.campaign_id).map (fun q => dval q.date)) :=
      le_dmax (List.mem_map.2 ⟨r, mem_groupOf hr, rfl⟩)
    have hall : dmax (rs.map (fun q => dval q.date)) ≤ dval r.date := by
      apply dmax_le (by simp [hne])
      intro a ha
      obtain ⟨q, hq, rfl⟩ := List.mem_map.1 ha
      exact hmax q hq
    linarith
  unfold recencyOf snapshot_date
  rw [le_antisymm hgle hge]
  have harg : dmax (rs.map fun q => dval q.date) + 1 - dmax (rs.map fun q => dval q.date) =
      (1 : ℚ) := by ring
  rw [harg]
  exact Int.floor_one

/-- Success of compute_rfm produces the aggregated, scored table of the
parsed input, and requires at least two distinct keys. -/
theorem compute_rfm_some {records : List Record} {rows : List RfmRow}
    (h : (compute_rfm records).2 = some rows) :
    ∃ rs, parseDates records = some rs ∧ 2 ≤ (sortedKeys rs).length ∧
      rows = rfm_rows rs := by
  unfold compute_rfm at h
  cases hp : parseDates records with
  | none =>
    rw [hp] at h
    simp at h
  | some rs =>
    rw [hp] at h
    have h2 : (if (sortedKeys rs).length < 2 then none else some (rfm_rows rs)) =
        some rows := h
    by_cases hlen : (sortedKeys rs).length < 2
    · rw [if_pos hlen] at h2
      simp at h2
    · rw [if_neg hlen] at h2
      exact ⟨rs, rfl, by omega, (Option.some_injective _ h2).symm⟩

/-- Each output row reads its metrics off its own key. -/
theorem mem_rfm_rows {rs : List Record} {row : RfmRow} (h : row ∈ rfm_rows rs) :
    ∃ i, i < (sortedKeys rs).length ∧ row.campaign_id = (sortedKeys rs).getD i 0 ∧
      row.Recency = recencyOf rs ((sortedKeys rs).getD i 0) ∧
      row.Frequency = freqOf rs ((sortedKeys rs).getD i 0) ∧
      row.Monetary = monOf rs ((sortedKeys rs).getD i 0) := by
  simp only [rfm_rows, List.mem_map, List.mem_range] at h
  obtain ⟨i, hi, rfl⟩ := h
  refine ⟨i, hi, rfl, ?_, ?_, ?_⟩
  · exact getD_map_of_lt (recencyOf rs) (sortedKeys rs) i hi 0 0
  · exact getD_map_of_lt (freqOf rs) (sortedKeys rs) i hi 0 0
  · exact getD_map_of_lt (monOf rs) (sortedKeys rs) i hi 0 0

/-- Each key position yields an output row carrying that key. -/
theorem rfm_rows_mem_of_index {rs : List Record} {i : ℕ}
    (hi : i < (sortedKeys rs).length) :
    ∃ row ∈ rfm_rows rs, row.campaign_id = (sortedKeys rs).getD i 0 ∧
      row.Recency = recencyOf rs ((sortedKeys rs).getD i 0) := by
  simp only [rfm_rows]
  refine ⟨_, List.mem_map.2 ⟨i, List.mem_range.2 hi, rfl⟩, rfl, ?_⟩
  exact getD_map_of_lt (recencyOf rs) (sortedKeys rs) i hi 0 0

/-- Membership gives a position whose default read returns the element. -/
theorem mem_getD {l : List ℕ} {k : ℕ} (h : k ∈ l) :
    ∃ i, i < l.length ∧ l.getD i 0 = k := by
  obtain ⟨i, hi, rfl⟩ := List.mem_iff_getElem.1 h
  exact ⟨i, hi, List.getD_eq_getElem l 0 hi⟩

/-- Reading positions 0..N-1 with a default reproduces the list. -/
theorem map_range_getD (l : List ℕ) (d : ℕ) :
    (List.range l.length).map (fun i => l.getD i d) = l := by
  induction l with
  | nil => rfl
  | cons a t ih =>
    rw [List.length_cons, List.range_succ_eq_map, List.map_cons, List.map_map]
    have hcomp : ((fun i => (a :: t).getD i d) ∘ Nat.succ) = fun i => t.getD i d := rfl
    rw [hcomp, ih]
    rfl

/-- C3: on a non-empty input with parseable dates and non-negative revenue,
every produced row has Recency at least 0 (in fact at least 1), Frequency
at least 1 and Monetary at least 0, and the entity owning the most recent
record has Recency exactly 1, never 0, because the snapshot date is one
day past the latest date. -/
theorem compute_rfm_metric_invariants (records : List Record) (hne : records ≠ [])
    (hpd : ∀ r ∈ records, (to_datetime1 r.date).isSome = true)
    (hrev : ∀ r ∈ records, 0 ≤ r.revenue_generated)
    (rows : List RfmRow) (h : (compute_rfm records).2 = some rows) :
    (∀ row ∈ rows, 0 ≤ row.Recency ∧ 1 ≤ row.Frequency ∧ 0 ≤ row.Monetary) ∧
    ∃ row ∈ rows, row.Recency = 1 ∧ ∃ r ∈ records, r.campaign_id = row.campaign_id ∧
      ∀ q ∈ records, dval q.date ≤ dval r.date := by
  obtain ⟨rs, hp, hlen2, rfl⟩ := compute_rfm_some h
  obtain ⟨hdates, hcamps, hrevs⟩ := parse_dates_map hp
  have hs := parseDates_eq_some hp
  have hrev2 : ∀ r ∈ rs, 0 ≤ r.revenue_generated := by
    intro r hr
    rw [hs] at hr
    obtain ⟨q, hq, rfl⟩ := List.mem_map.1 hr
    exact hrev q hq
  constructor
  · intro row hrow
    obtain ⟨i, hi, hcid, hrec, hfrq, hmon⟩ := mem_rfm_rows hrow
    have hkmem : (sortedKeys rs).getD i 0 ∈ sortedKeys rs := by
      rw [List.getD_eq_getElem _ _ hi]
      exact List.getElem_mem hi
    refine ⟨?_, ?_, ?_⟩
    · rw [hrec]
      have := one_le_recencyOf hkmem
      omega
    · rw [hfrq]
      exact List.length_pos.2 (groupOf_ne_nil hkmem)
    · rw [hmon]
      apply List.sum_nonneg
      intro a ha
      obtain ⟨r, hrg, rfl⟩ := List.mem_map.1 ha
      exact hrev2 r (groupOf_sub hrg).1
  · have hne2 : records.map (fun q => dval q.date) ≠ [] := by simp [hne]
    obtain ⟨rstar, hrstar, hdeq⟩ := List.mem_map.1 (dmax_mem hne2)
    have hmaxall : ∀ q ∈ records, dval q.date ≤ dval rstar.date := by
      intro q hq
      calc dval q.date ≤ dmax (records.map (fun p => dval p.date)) :=
            le_dmax (List.mem_map.2 ⟨q, hq, rfl⟩)
        _ = dval rstar.date := hdeq.symm
    have hkmem : rstar.campaign_id ∈ sortedKeys rs := by
      rw [mem_sortedKeys, hcamps]
      exact List.mem_map.2 ⟨rstar, hrstar, rfl⟩
    obtain ⟨i, hi, hki⟩ := mem_getD hkmem
    obtain ⟨row, hrowmem, hrowc, hrowrec⟩ := rfm_rows_mem_of_index hi
    refine ⟨row, hrowmem, ?_, rstar, hrstar, by rw [hrowc, hki], hmaxall⟩
    rw [hrowrec, hki]
    have hconv : ({ rstar with
        date := DateVal.ts ((to_datetime1 rstar.date).getD 0) } : Record) ∈ rs := by
      rw [hs]
      exact List.mem_map.2 ⟨rstar, hrstar, rfl⟩
    have happ := recencyOf_eq_one hconv ?_
    · exact happ
    · intro q hq
      have h1 : dval q.date ≤ dmax (rs.map (fun p => dval p.date)) :=
        le_dmax (List.mem_map.2 ⟨q, hq, rfl⟩)
      rw [hdates] at h1
      calc dval q.date ≤ dmax (records.map fun p => dval p.date) := h1
        _ = dval rstar.date := hdeq.symm
        _ = dval (DateVal.ts ((to_datetime1 rstar.date).getD 0)) :=
            (dval_parse rstar.date).symm

/-- Witness for C3 at a concrete two-entity table. -/
theorem compute_rfm_metric_invariants_witness :
    (∀ row ∈ ([⟨1, 2, 1, 10, 1, 1, 1, "111"⟩, ⟨2, 1, 1, 20, 5, 5, 5, "555"⟩] : List RfmRow),
      0 ≤ row.Recency ∧ 1 ≤ row.Frequency ∧ 0 ≤ row.Monetary) ∧
    ∃ row ∈ ([⟨1, 2, 1, 10, 1, 1, 1, "111"⟩, ⟨2, 1, 1, 20, 5, 5, 5, "555"⟩] : List RfmRow),
      row.Recency = 1 ∧
      ∃ r ∈ ([⟨1, DateVal.ts 0, 1, 10⟩, ⟨2, DateVal.ts 1, 2, 20⟩] : List Record),
        r.campaign_id = row.campaign_id ∧
        ∀ q ∈ ([⟨1, DateVal.ts 0, 1, 10⟩, ⟨2, DateVal.ts 1, 2, 20⟩] : List Record),
          dval q.date ≤ dval r.date :=
  compute_rfm_metric_invariants [⟨1, DateVal.ts 0, 1, 10⟩, ⟨2, DateVal.ts 1, 2, 20⟩]
    (by decide) (by decide) (by decide)
    [⟨1, 2, 1, 10, 1, 1, 1, "111"⟩, ⟨2, 1, 1, 20, 5, 5, 5, "555"⟩]
    (by with_unfolding_all rfl)

/-- C8: every produced row's RFM_Score string is the concatenation of its
three score digits in R, F, M order. -/
theorem compute_rfm_composite_score (records : List Record) (rows : List RfmRow)
    (h : (compute_rfm records).2 = some rows) :
    ∀ row ∈ rows, row.RFM_Score =
      toString row.R_Score ++ toString row.F_Score ++ toString row.M_Score := by
  obtain ⟨rs, hp, hlen, rfl⟩ := compute_rfm_some h
  intro row hrow
  simp only [rfm_rows, List.mem_map, List.mem_range] at hrow
  obtain ⟨i, hi, rfl⟩ := hrow
  rfl

/-- Witness for C8 at a concrete two-entity table: the produced (5,5,5) row
carries the concatenated string 555. -/
theorem compute_rfm_composite_score_witness :
    (⟨2, 1, 1, 20, 5, 5, 5, "555"⟩ : RfmRow).RFM_Score =
      toString (⟨2, 1, 1, 20, 5, 5, 5, "555"⟩ : RfmRow).R_Score ++
      toString (⟨2, 1, 1, 20, 5, 5, 5, "555"⟩ : RfmRow).F_Score ++
      toString (⟨2, 1, 1, 20, 5, 5, 5, "555"⟩ : RfmRow).M_Score :=
  compute_rfm_composite_score [⟨1, DateVal.ts 0, 1, 10⟩, ⟨2, DateVal.ts 1, 2, 20⟩]
    [⟨1, 2, 1, 10, 1, 1, 1, "111"⟩, ⟨2, 1, 1, 20, 5, 5, 5, "555"⟩]
    (by with_unfolding_all rfl) ⟨2, 1, 1, 20, 5, 5, 5, "555"⟩ (by decide)

/-- C10: the rows of the produced table are ordered by strictly ascending
grouping key -- groupby sorts keys -- and carry exactly the distinct keys
of the input records, whatever order the input arrived in. -/
theorem compute_rfm_rows_key_sorted (records : List Record) (rows : List RfmRow)
    (h : (compute_rfm records).2 = some rows) :
    List.Sorted (· < ·) (rows.map RfmRow.campaign_id) ∧
    ∀ k, k ∈ rows.map RfmRow.campaign_id ↔ k ∈ records.map Record.campaign_id := by
  obtain ⟨rs, hp, hlen, rfl⟩ := compute_rfm_some h
  obtain ⟨hdates, hcamps, hrevs⟩ := parse_dates_map hp
  have hmk : (rfm_rows rs).map RfmRow.campaign_id = sortedKeys rs := by
    simp only [rfm_rows]
    rw [List.map_map]
    exact map_range_getD (sortedKeys rs) 0
  refine ⟨hmk ▸ sortedKeys_sorted rs, fun k => ?_⟩
  rw [hmk, mem_sortedKeys, hcamps]

/-- Witness for C10 at a concrete table arriving in descending key order. -/
theorem compute_rfm_rows_key_sorted_witness :
    List.Sorted (· < ·)
      (([⟨1, 2, 1, 10, 1, 1, 1, "111"⟩, ⟨2, 1, 1, 20, 5, 5, 5, "555"⟩] : List RfmRow).map
        RfmRow.campaign_id) ∧
    ∀ k, k ∈ (([⟨1, 2, 1, 10, 1, 1, 1, "111"⟩,
          ⟨2, 1, 1, 20, 5, 5, 5, "555"⟩] : List RfmRow).map RfmRow.campaign_id) ↔
      k ∈ (([⟨2, DateVal.ts 1, 2, 20⟩, ⟨1, DateVal.ts 0, 1, 10⟩] : List Record).map
        Record.campaign_id) :=
  compute_rfm_rows_key_sorted [⟨2, DateVal.ts 1, 2, 20⟩, ⟨1, DateVal.ts 0, 1, 10⟩]
    [⟨1, 2, 1, 10, 1, 1, 1, "111"⟩, ⟨2, 1, 1, 20, 5, 5, 5, "555"⟩]
    (by with_unfolding_all rfl)

/-- Reordering a series does not change its maximum. -/
theorem perm_maximum {l l2 : List ℚ} (h : l.Perm l2) : l.maximum = l2.maximum := by
  induction h with
  | nil => rfl
  | cons a _ ih => rw [List.maximum_cons, List.maximum_cons, ih]
  | swap x y t =>
    rw [List.maximum_cons, List.maximum_cons, List.maximum_cons, List.maximum_cons]
    exact max_left_comm _ _ _
  | trans _ _ ih1 ih2 => rw [ih1, ih2]

/-- Reordering a series does not change its maximum (with default). -/
theorem perm_dmax {l l2 : List ℚ} (h : l.Perm l2) : dmax l = dmax l2 := by
  unfold dmax
  rw [perm_maximum h]

/-- Reordering the input rows does not change the sorted key list. -/
theorem perm_sortedKeys {rs rs2 : List Record} (h : rs.Perm rs2) :
    sortedKeys rs = sortedKeys rs2 := by
  unfold sortedKeys
  exact List.eq_of_perm_of_sorted
    ((List.perm_insertionSort _ _).trans (((h.map Record.campaign_id).dedup).trans
      (List.perm_insertionSort _ _).symm))
    (List.sorted_insertionSort _ _) (List.sorted_insertionSort _ _)

/-- Reordering the input rows reorders each group accordingly. -/
theorem perm_groupOf {rs rs2 : List Record} (h : rs.Perm rs2) (k : ℕ) :
    (groupOf rs k).Perm (groupOf rs2 k) :=
  h.filter _

/-- Recency of each key is invariant under reordering the input rows. -/
theorem perm_recencyOf {rs rs2 : List Record} (h : rs.Perm rs2) (k : ℕ) :
    recencyOf rs k = recencyOf rs2 k := by
  unfold recencyOf snapshot_date
  rw [perm_dmax (h.map (fun r => dval r.date)),
    perm_dmax ((perm_groupOf h k).map (fun r => dval r.date))]

/-- Frequency of each key is invariant under reordering the input rows. -/
theorem perm_freqOf {rs rs2 : List Record} (h : rs.Perm rs2) (k : ℕ) :
    freqOf rs k = freqOf rs2 k :=
  (perm_groupOf h k).length_eq

/-- Monetary of each key is invariant under reordering the input rows. -/
theorem perm_monOf {rs rs2 : List Record} (h : rs.Perm rs2) (k : ℕ) :
    monOf rs k = monOf rs2 k :=
  ((perm_groupOf h k).map Record.revenue_generated).sum_eq

/-- The whole aggregated, scored table is invariant under reordering the
input rows, since grouping order is fixed by sorting the keys and every
aggregate is order-free. -/
theorem perm_rfm_rows {rs rs2 : List Record} (h : rs.Perm rs2) :
    rfm_rows rs = rfm_rows rs2 := by
  have hk := perm_sortedKeys h
  have hrec : recencyOf rs = recencyOf rs2 := funext (perm_recencyOf h)
  have hfrq : freqOf rs = freqOf rs2 := funext (perm_freqOf h)
  have hmon : monOf rs = monOf rs2 := funext (perm_monOf h)
  unfold rfm_rows
  rw [hk, hrec, hfrq, hmon]

/-- The result component of compute_rfm after a failed parse. -/
theorem compute_rfm_snd_none {records : List Record} (hp : parseDates records = none) :
    (compute_rfm records).2 = none := by
  unfold compute_rfm
  rw [hp]

/-- The result component of compute_rfm after a successful parse. -/
theorem compute_rfm_snd_eq {records rs : List Record} (hp : parseDates records = some rs) :
    (compute_rfm records).2 =
      if (sortedKeys rs).length < 2 then none else some (rfm_rows rs) := by
  unfold compute_rfm
  rw [hp]

/-- The emitted result of compute_rfm is invariant under reordering the
input rows. -/
theorem compute_rfm_output_perm {records records2 : List Record}
    (h : records.Perm records2) :
    (compute_rfm records).2 = (compute_rfm records2).2 := by
  have hall : records.all (fun r => (to_datetime1 r.date).isSome) =
      records2.all (fun r => (to_datetime1 r.date).isSome) := by
    by_cases hc : records.all (fun r => (to_datetime1 r.date).isSome) = true
    · rw [hc]
      symm
      rw [List.all_eq_true] at hc ⊢
      intro r hr
      exact hc r (h.mem_iff.2 hr)
    · have hc2 : ¬ records2.all (fun r => (to_datetime1 r.date).isSome) = true := by
        intro hc2
        apply hc
        rw [List.all_eq_true] at hc2 ⊢
        intro r hr
        exact hc2 r (h.mem_iff.1 hr)
      rw [Bool.not_eq_true] at hc hc2
      rw [hc, hc2]
  cases hp : parseDates records with
  | none =>
    have hc : records.all (fun r => (to_datetime1 r.date).isSome) = false := by
      by_cases hc : records.all (fun r => (to_datetime1 r.date).isSome) = true
      · unfold parseDates at hp
        rw [if_pos hc] at hp
        exact absurd hp (by simp)
      · rwa [Bool.not_eq_true] at hc
    have hp2 : parseDates records2 = none := by
      unfold parseDates
      rw [if_neg (by simp [← hall, hc])]
    rw [compute_rfm_snd_none hp, compute_rfm_snd_none hp2]
  | some rs =>
    have hc : records.all (fun r => (to_datetime1 r.date).isSome) = true := by
      by_contra hcn
      rw [Bool.not_eq_true] at hcn
      unfold parseDates at hp
      rw [if_neg (by simp [hcn])] at hp
      exact absurd hp (by simp)
    have hp2 : parseDates records2 = some (records2.map
        (fun r => { r with date := DateVal.ts ((to_datetime1 r.date).getD 0) })) := by
      unfold parseDates
      rw [if_pos (hall ▸ hc)]
    have hpm : rs.Perm (records2.map
        (fun r => { r with date := DateVal.ts ((to_datetime1 r.date).getD 0) })) := by
      rw [parseDates_eq_some hp]
      exact h.map _
    rw [compute_rfm_snd_eq hp, compute_rfm_snd_eq hp2,
      perm_sortedKeys hpm, perm_rfm_rows hpm]

/-- C7: the pipeline is deterministic and idempotent: the emitted table is a
function of the input record set alone -- any two runs on inputs holding
the same records, in whatever order, produce identical output tables,
because grouping order is fixed by sorted keys rather than by incidental
ordering, making RankScorer tie-breaks reproducible. -/
theorem run_pipeline_deterministic (records records2 : List Record)
    (h : records.Perm records2) :
    run_pipeline records = run_pipeline records2 := by
  unfold run_pipeline
  rw [compute_rfm_output_perm h]

/-- Witness for C7: a concrete two-record table and its reversal produce
the same output table. -/
theorem run_pipeline_deterministic_witness :
    run_pipeline [⟨1, DateVal.ts 0, 1, 10⟩, ⟨2, DateVal.ts 1, 2, 20⟩] =
      run_pipeline [⟨2, DateVal.ts 1, 2, 20⟩, ⟨1, DateVal.ts 0, 1, 10⟩] :=
  run_pipeline_deterministic _ _ (List.Perm.swap _ _ _)

/-- C2: segment is a total deterministic function of the score triple: every
integer triple is mapped to exactly one of the five labels, the rules being
tried in order with the first match winning; in particular (5,5,5), which
satisfies the Loyal Customers test as well, yields Champions and not Loyal
Customers, (4,2,2) yields Recent Customers, and (1,3,1) yields At Risk. -/
theorem segment_total_first_match :
    (∀ r f m : ℤ, segment r f m = "Champions" ∨ segment r f m = "Loyal Customers" ∨
      segment r f m = "Recent Customers" ∨ segment r f m = "At Risk" ∨
      segment r f m = "Others") ∧
    segment 5 5 5 = "Champions" ∧ segment 5 5 5 ≠ "Loyal Customers" ∧
    (4 ≤ (5:ℤ) ∧ 4 ≤ (5:ℤ)) ∧
    segment 4 2 2 = "Recent Customers" ∧ segment 1 3 1 = "At Risk" := by
  refine ⟨fun r f m => ?_, by decide, by decide, by decide, by decide, by decide⟩
  unfold segment
  split_ifs <;> simp

/-- C6: running the aggregation on zero input records fails (pd.qcut raises
on the empty series) and produces no output table at all; the caller's
empty table is left as is. -/
theorem compute_rfm_empty_fails :
    compute_rfm ([] : List Record) = ([], none) ∧
    run_pipeline ([] : List Record) = none := by
  constructor <;> rfl

/-- C4 counterexample: a series of two values -- fewer than five distinct
entities -- is scored successfully by rfm_score instead of failing, so the
claim that every input with fewer than five distinct entities fails is
false. -/
theorem rfm_score_two_values_succeeds :
    rfm_score [(1:ℚ), 2] false = some [1, 5] ∧ rfm_score [(1:ℚ), 2] false ≠ none := by
  constructor
  · rfl
  · simp [rfm_score]

/-- C4 (amended): with fewer than five values, scoring fails only when the
series has at most one entry (pd.qcut raises because the quantile bin edges
coincide; the code has no InsufficientDataError), while with two to four
entries it silently succeeds, producing a full-length list of scores
in 1..5. -/
theorem rfm_score_small_input (xs : List ℚ) (rev : Bool) (h : xs.length < 5) :
    (xs.length ≤ 1 → rfm_score xs rev = none) ∧
    (2 ≤ xs.length → ∃ ys, rfm_score xs rev = some ys ∧ ys.length = xs.length ∧
      ∀ s ∈ ys, 1 ≤ s ∧ s ≤ 5) := by
  constructor
  · intro h1
    unfold rfm_score
    rw [if_pos (by omega)]
  · intro h2
    refine ⟨scoreList xs rev, ?_, length_scoreList xs rev, fun s hs => scoreList_mem_range xs rev s hs⟩
    unfold rfm_score
    rw [if_neg (by omega)]

/-- Witness for C4 (amended) at the concrete series [7] and [3, 4]. -/
theorem rfm_score_small_input_witness :
    rfm_score [(7:ℚ)] true = none ∧
    ∃ ys, rfm_score [(3:ℚ), 4] true = some ys ∧ ys.length = 2 ∧
      ∀ s ∈ ys, 1 ≤ s ∧ s ≤ 5 := by
  constructor
  · exact (rfm_score_small_input [(7:ℚ)] true (by decide)).1 (by decide)
  · obtain ⟨ys, h1, h2, h3⟩ := (rfm_score_small_input [(3:ℚ), 4] true (by decide)).2 (by decide)
    exact ⟨ys, h1, by simpa using h2, h3⟩

/-- C9 counterexample: the script's first step writes the parsed date column
back into the caller's frame, so on a table whose dates arrive as raw
strings the caller's table is changed, refuting the claim that compute_rfm
leaves the input table unchanged. -/
theorem compute_rfm_mutates_caller_table :
    (compute_rfm [⟨1, DateVal.raw (some 3), 1, 0⟩, ⟨2, DateVal.raw (some 4), 2, 0⟩]).1 ≠
      [⟨1, DateVal.raw (some 3), 1, 0⟩, ⟨2, DateVal.raw (some 4), 2, 0⟩] := by
  decide

/-- C9 (amended): compute_rfm mutates exactly the date column of the
caller's table: when every date parses, each record keeps its key,
performance id and revenue but has its date replaced by the parsed
timestamp (even when scoring later fails); when some date does not parse,
pd.to_datetime raises before assigning and the table is unchanged. -/
theorem compute_rfm_table_after (records : List Record) :
    ((∀ r ∈ records, (to_datetime1 r.date).isSome = true) →
      (compute_rfm records).1.length = records.length ∧
      ∀ i, i < records.length →
        ((compute_rfm records).1.getD i dRec).campaign_id = (records.getD i dRec).campaign_id ∧
        ((compute_rfm records).1.getD i dRec).performance_id =
          (records.getD i dRec).performance_id ∧
        ((compute_rfm records).1.getD i dRec).revenue_generated =
          (records.getD i dRec).revenue_generated ∧
        ((compute_rfm records).1.getD i dRec).date =
          DateVal.ts ((to_datetime1 (records.getD i dRec).date).getD 0)) ∧
    ((∃ r ∈ records, (to_datetime1 r.date).isSome = false) →
      (compute_rfm records).1 = records) := by
  constructor
  · intro hall
    have hb : records.all (fun r => (to_datetime1 r.date).isSome) = true :=
      List.all_eq_true.2 hall
    have hfst : (compute_rfm records).1 =
        records.map (fun r => { r with date := DateVal.ts ((to_datetime1 r.date).getD 0) }) := by
      unfold compute_rfm parseDates
      rw [if_pos hb]
    rw [hfst]
    refine ⟨by simp, fun i hi => ?_⟩
    rw [getD_map_of_lt _ records i hi dRec dRec]
    exact ⟨rfl, rfl, rfl, rfl⟩
  · intro hex
    have hb : records.all (fun r => (to_datetime1 r.date).isSome) = false := by
      obtain ⟨r, hr, hfalse⟩ := hex
      rcases h : records.all (fun r => (to_datetime1 r.date).isSome) with _ | _
      · rfl
      · exact absurd (List.all_eq_true.1 h r hr) (by simp [hfalse])
    unfold compute_rfm parseDates
    rw [if_neg (by simp [hb])]

/-- Witness for C9 (amended) at a one-record table with a raw string date
and at a one-record table with an unparseable date. -/
theorem compute_rfm_table_after_witness :
    ((compute_rfm [⟨1, DateVal.raw (some 3), 1, 0⟩]).1.getD 0 dRec).date = DateVal.ts 3 ∧
    (compute_rfm [⟨1, DateVal.raw none, 1, 0⟩]).1 = [⟨1, DateVal.raw none, 1, 0⟩] := by
  constructor
  · have h := ((compute_rfm_table_after [⟨1, DateVal.raw (some 3), 1, 0⟩]).1
      (by decide)).2 0 (by decide)
    simpa using h.2.2.2
  · exact (compute_rfm_table_after [⟨1, DateVal.raw none, 1, 0⟩]).2
      ⟨⟨1, DateVal.raw none, 1, 0⟩, by simp, by decide⟩

end RFM
